import Mathlib

/-!
# bitslicer — verification of the bit-level view primitive

Shallow embedding of the `bitslicer` Rust crate (`src/lib.rs`, `src/order.rs`).

Conventions of the embedding:
* Bytes (`u8`) are modelled as `Nat`; the only arithmetic performed on them
  (`|= 1 << bit`, `&= !(1 << bit)` with `bit < 8`) keeps values below 256, so no
  reduction is needed; where a property genuinely depends on the `u8` range the
  theorem carries an explicit `< 256` hypothesis.  The Rust `!(1 << bit)` on `u8`
  is written `255 ^^^ (1 <<< bit)`.
* `usize` indices and counts are `Nat`.
* A Rust panic (a failed `assert!`, an out-of-bounds slice index, or a checked
  `usize` subtraction that would underflow) is modelled as `Option.none`; a
  function that cannot panic on the modelled path still returns `some` so that
  compositions are uniform.
* The crate's compile-time order parameters `Lsb0/Msb0` and
  `LittleEndian/BigEndian` are represented by the crate's own runtime tags
  `DynBitOrder`/`DynEndian` (the source dispatches the dynamic tags to the very
  same static functions, which are embedded separately and proved equal to the
  dispatch, so every `(bit order, byte order)` instantiation is covered).
  Constructor names are lower-cased (`lsb0`, `littleEndian`, …) to avoid
  clashing with the namespaces of the static policies.
-/

/-- Runtime-tagged bit order (`DynBitOrder` in `src/order.rs`). -/
inductive DynBitOrder where
  | msb0
  | lsb0
deriving DecidableEq, Repr

/-- Runtime-tagged byte order (`DynEndian` in `src/order.rs`). -/
inductive DynEndian where
  | littleEndian
  | bigEndian
deriving DecidableEq, Repr

/-- `impl ByteOrder for LittleEndian` (`src/order.rs` lines 145-149):
`fn find_byte(self, bit_no, _num_bits) { bit_no / 8 }` — no assertion, never
panics. -/
def LittleEndian.find_byte (bit_no _num_bits : Nat) : Option Nat :=
  some (bit_no / 8)

/-- `impl ByteOrder for BigEndian` (`src/order.rs` lines 131-137):
`assert!(bit_no < num_bits); let num_bytes = num_bits.div_ceil(8);
num_bytes - bit_no / 8 - 1`.  The failed assertion is `none`; under the
assertion the `usize` subtraction cannot underflow. -/
def BigEndian.find_byte (bit_no num_bits : Nat) : Option Nat :=
  if bit_no < num_bits then
    some ((num_bits + 7) / 8 - bit_no / 8 - 1)
  else
    none

/-- `impl ByteOrder for DynEndian` (`src/order.rs` lines 157-164): dispatch to
the static policy named by the tag. -/
def DynEndian.find_byte : DynEndian → Nat → Nat → Option Nat
  | DynEndian.bigEndian, bit_no, num_bits => BigEndian.find_byte bit_no num_bits
  | DynEndian.littleEndian, bit_no, num_bits => LittleEndian.find_byte bit_no num_bits

/-- `impl BitOrder for Lsb0` (`src/order.rs` lines 48-55):
`let byte = endian.find_byte(n, num_bits); let bit = n % 8; (byte, bit)`. -/
def Lsb0.find_bit (endian : DynEndian) (n num_bits : Nat) : Option (Nat × Nat) :=
  match endian.find_byte n num_bits with
  | some byte => some (byte, n % 8)
  | none => none

/-- `impl BitOrder for Msb0` (`src/order.rs` lines 41-47):
`let (byte, bit) = Lsb0::find_bit(Lsb0, endian, n, num_bits); (byte, 7 - bit)`. -/
def Msb0.find_bit (endian : DynEndian) (n num_bits : Nat) : Option (Nat × Nat) :=
  match Lsb0.find_bit endian n num_bits with
  | some (byte, bit) => some (byte, 7 - bit)
  | none => none

/-- `impl BitOrder for DynBitOrder` (`src/order.rs` lines 56-64): dispatch to
the static policy named by the tag. -/
def DynBitOrder.find_bit : DynBitOrder → DynEndian → Nat → Nat → Option (Nat × Nat)
  | DynBitOrder.msb0, endian, n, num_bits => Msb0.find_bit endian n num_bits
  | DynBitOrder.lsb0, endian, n, num_bits => Lsb0.find_bit endian n num_bits

/-- The view into a sequence of bits (`BitSlice` in `src/lib.rs` lines 59-65).
The storage parameter `S` is modelled as the list of byte values it dereferences
to; the order parameters as the runtime tags. -/
structure BitSlice where
  bytes : List Nat
  start_bit : Nat
  num_bits : Nat
  bit_order : DynBitOrder
  byte_order : DynEndian
deriving DecidableEq, Repr

/-- `BitSlice::new_with_order` (`src/lib.rs` lines 125-134):
`assert!(bytes.as_ref().len() * 8 >= num_bits)`, then `start_bit = 0`. -/
def BitSlice.new_with_order (bytes : List Nat) (num_bits : Nat)
    (bit_order : DynBitOrder) (byte_order : DynEndian) : Option BitSlice :=
  if num_bits ≤ bytes.length * 8 then
    some { bytes := bytes, start_bit := 0, num_bits := num_bits,
           bit_order := bit_order, byte_order := byte_order }
  else
    none

/-- `BitSlice::get_bit` (`src/lib.rs` lines 145-155):
`assert!(n < self.num_bits)`, resolve
`self.bit_order.find_bit(self.byte_order, n + self.start_bit, self.num_bits)`
(note: the view's own `num_bits` is the total-bit-count argument), then test
`(self.bytes.as_ref()[byte] & (1 << bit)) > 0`. -/
def BitSlice.get_bit (s : BitSlice) (n : Nat) : Option Bool :=
  if n < s.num_bits then
    match s.bit_order.find_bit s.byte_order (n + s.start_bit) s.num_bits with
    | some (byte, bit) =>
      match s.bytes[byte]? with
      | some x => some (decide (0 < x &&& (1 <<< bit)))
      | none => none
    | none => none
  else
    none

/-- `BitSlice::set_bit` (`src/lib.rs` lines 223-232).  There is **no** bounds
assertion on `n`; the address is resolved exactly as in `get_bit` and the byte
is updated with `|= 1 << bit` or `&= !(1 << bit)`. -/
def BitSlice.set_bit (s : BitSlice) (n : Nat) (value : Bool) : Option BitSlice :=
  match s.bit_order.find_bit s.byte_order (n + s.start_bit) s.num_bits with
  | some (byte, bit) =>
    match s.bytes[byte]? with
    | some x =>
      let x' := if value then x ||| (1 <<< bit) else x &&& (255 ^^^ (1 <<< bit))
      some { s with bytes := s.bytes.set byte x' }
    | none => none
  | none => none

/-- `core::ops::Bound<usize>`, as consumed by `BitSlice::slice`. -/
inductive Bound where
  | included (idx : Nat)
  | excluded (idx : Nat)
  | unbounded
deriving DecidableEq, Repr

/-- `range_to_bounds` (`src/lib.rs` lines 462-478). -/
def range_to_bounds (start_bound end_bound : Bound) (len : Nat) : Nat × Nat :=
  let start_index :=
    match start_bound with
    | Bound.included idx => idx
    | Bound.excluded idx => idx + 1
    | Bound.unbounded => 0
  let end_index :=
    match end_bound with
    | Bound.included idx => idx + 1
    | Bound.excluded idx => idx
    | Bound.unbounded => len
  (start_index, end_index)

/-- `BitSlice::slice` (`src/lib.rs` lines 163-185):
`assert!(start_bit <= end_excl_bit); assert!(end_excl_bit <= self.num_bits)`;
the result keeps the same bytes and sets `num_bits = end - start`,
`start_bit = start` (the range's start — the receiver's own `start_bit` is not
added). -/
def BitSlice.slice (s : BitSlice) (start_bound end_bound : Bound) : Option BitSlice :=
  let (start_bit, end_excl_bit) := range_to_bounds start_bound end_bound s.num_bits
  if start_bit ≤ end_excl_bit ∧ end_excl_bit ≤ s.num_bits then
    some { s with num_bits := end_excl_bit - start_bit, start_bit := start_bit }
  else
    none

/-- Auxiliary loop of `PartialEq::eq`: compare bits `i, i+1, …` while `fuel`
steps remain (`fuel` starts at the common length, so the loop visits
`0 .. len-1` exactly as the Rust `for i in 0..self.len()`). -/
def eqAux (a b : BitSlice) : Nat → Nat → Option Bool
  | _, 0 => some true
  | i, fuel + 1 =>
    match a.get_bit i, b.get_bit i with
    | some x, some y => if x = y then eqAux a b (i + 1) fuel else some false
    | _, _ => none

/-- `impl PartialEq<BitSlice> for BitSlice` (`src/lib.rs` lines 279-293):
unequal lengths compare `false`; otherwise bits are compared pairwise via
`get_bit` (whose panic propagates, hence `Option`). -/
def BitSlice.eq (a b : BitSlice) : Option Bool :=
  if a.num_bits = b.num_bits then eqAux a b 0 a.num_bits else some false

/-- The iterator over a `BitSlice` (`BitIter` in `src/lib.rs` lines 384-387). -/
structure BitIter where
  slice : BitSlice
  idx : Nat
deriving DecidableEq, Repr

/-- `Iterator::next` for `BitIter` (`src/lib.rs` lines 407-415): if
`idx < slice.len()`, read the bit at `idx` (a panic inside `get_bit`
propagates as the outer `none`), advance `idx`; otherwise yield `None` and
leave the iterator unchanged. -/
def BitIter.next (it : BitIter) : Option (Option Bool × BitIter) :=
  if it.idx < it.slice.num_bits then
    match it.slice.get_bit it.idx with
    | some bit => some (some bit, { it with idx := it.idx + 1 })
    | none => none
  else
    some (none, it)

/-- `Iterator::nth` for `BitIter` (`src/lib.rs` lines 428-431):
`self.idx += n; self.next()` — the increment is unconditional. -/
def BitIter.nth (it : BitIter) (n : Nat) : Option (Option Bool × BitIter) :=
  BitIter.next { it with idx := it.idx + n }

/-- `Iterator::size_hint` for `BitIter` (`src/lib.rs` lines 440-443):
`let len = self.slice.len() - self.idx; (len, Some(len))`.  The `usize`
subtraction is overflow-checked, so `idx > len` is a panic (`none`). -/
def BitIter.size_hint (it : BitIter) : Option (Nat × Option Nat) :=
  if it.idx ≤ it.slice.num_bits then
    some (it.slice.num_bits - it.idx, some (it.slice.num_bits - it.idx))
  else
    none

/-- Modelled from the spec: `push` is called by `src/tests.rs` (`test_push`)
but its definition is not under `src/`.  Spec §4.3: "`push(value)` succeeds
while `length + 1 ≤ capacity_bits`; otherwise fails with a capacity-exceeded
error; on success, `length` increments and the new bit is written at the
address AddressScheme resolves for the *new* total length", with
`capacity_bits = buffer.byte_length × 8` (§3, Glossary).  Writing the new
highest-index bit against the new total length is exactly `set_bit` of the
length-incremented view at index `old length`.  `none` covers both the
capacity-exceeded error and a panic inside the write. -/
def BitSlice.push (s : BitSlice) (value : Bool) : Option BitSlice :=
  if s.num_bits + 1 ≤ s.bytes.length * 8 then
    BitSlice.set_bit { s with num_bits := s.num_bits + 1 } s.num_bits value
  else
    none

/-- Sequence of `push` calls (the shape of the `push` helper in
`src/tests.rs` lines 164-179, generalised to a list of bit values). -/
def push_all (s : BitSlice) : List Bool → Option BitSlice
  | [] => some s
  | b :: rest =>
    match s.push b with
    | some s' => push_all s' rest
    | none => none

/-- One step of the loop in `impl_into_bitslice` (`src/lib.rs` lines 260-272):
`for idx in 0..BITS { if value == 0 { break; }
slice.set_bit(idx, (value & 1) == 1); value >>= 1; }`.
`fuel` is the number of remaining loop iterations. -/
def write_bits (s : BitSlice) (idx : Nat) : Nat → Nat → Option BitSlice
  | 0, _ => some s
  | fuel + 1, value =>
    if value = 0 then some s
    else
      match s.set_bit idx (decide (value &&& 1 = 1)) with
      | some s' => write_bits s' (idx + 1) fuel (value >>> 1)
      | none => none

/-- `impl_into_bitslice` / `From<uN> for BitSlice` (`src/lib.rs` lines
254-277): allocate `BITS / 8` zero bytes, build a view of `BITS` bits with the
(here: arbitrary) order pair, then run the write loop.  `numBytes` plays the
role of `uN::BITS / 8`. -/
def from_integer (bo : DynBitOrder) (eo : DynEndian) (numBytes : Nat) (v : Nat) :
    Option BitSlice :=
  match BitSlice.new_with_order (List.replicate numBytes 0) (8 * numBytes) bo eo with
  | some s => write_bits s 0 (8 * numBytes) v
  | none => none

/-- Read bits `0 .. n-1` of the view, bit `j` weighted `2^j` (least-significant
first). -/
def read_bits (s : BitSlice) : Nat → Option Nat
  | 0 => some 0
  | n + 1 =>
    match read_bits s n, s.get_bit n with
    | some acc, some b => some (acc + (if b then 2 ^ n else 0))
    | _, _ => none

/-- Modelled from the spec: `to_uint` is called by `impl_try_from_bitslice`
(`src/lib.rs` line 244) but its definition is not under `src/`.  Spec §4.2:
"`to_integer(width)`: fills a destination unsigned integer from logical bit 0
as the least-significant bit upward; fails with a conversion error if the
extracted magnitude cannot fit the requested width." -/
def BitSlice.to_uint (s : BitSlice) (width : Nat) : Option Nat :=
  match read_bits s s.num_bits with
  | some v => if v < 2 ^ width then some v else none
  | none => none

/-- The byte index a byte-order policy computes, as a total function (its
value under the policy's success condition).  Proof-side characterization of
the two `find_byte` implementations; `find_bit_eq` below ties it to the
source functions. -/
def byteOf : DynEndian → Nat → Nat → Nat
  | DynEndian.littleEndian, n, _ => n / 8
  | DynEndian.bigEndian, n, total => (total + 7) / 8 - n / 8 - 1

/-- The bit-within-byte index a bit-order policy computes.  Proof-side
characterization, tied to the source by `find_bit_eq`. -/
def bitOf : DynBitOrder → Nat → Nat
  | DynBitOrder.lsb0, n => n % 8
  | DynBitOrder.msb0, n => 7 - n % 8

/-- The byte update `set_bit` performs: `|= 1 << i` or `&= !(1 << i)`. -/
def updByte (x i : Nat) (value : Bool) : Nat :=
  if value then x ||| (1 <<< i) else x &&& (255 ^^^ (1 <<< i))

/-- The state `set_bit` leaves behind: the view with byte `B` replaced. -/
def setByteAt (s : BitSlice) (B u : Nat) : BitSlice :=
  { s with bytes := s.bytes.set B u }

/-! ### Characterization lemmas for the addressing engine -/

theorem find_bit_eq (bo : DynBitOrder) (eo : DynEndian) (n total : Nat) :
    bo.find_bit eo n total =
      if eo = DynEndian.littleEndian ∨ n < total then
        some (byteOf eo n total, bitOf bo n)
      else none := by
  cases bo <;> cases eo <;> by_cases h : n < total <;>
    simp [DynBitOrder.find_bit, Msb0.find_bit, Lsb0.find_bit, DynEndian.find_byte,
      LittleEndian.find_byte, BigEndian.find_byte, byteOf, bitOf, h]

theorem bitOf_lt_eight (bo : DynBitOrder) (n : Nat) : bitOf bo n < 8 := by
  cases bo <;> simp only [bitOf] <;> omega

theorem byteOf_lt_length (eo : DynEndian) (n total len : Nat) (hn : n < 8 * len)
    (htot : total ≤ 8 * len) (hbe : eo = DynEndian.bigEndian → n < total) :
    byteOf eo n total < len := by
  cases eo with
  | littleEndian => simp only [byteOf]; omega
  | bigEndian =>
    have h := hbe rfl
    simp only [byteOf]
    omega

theorem addr_inj (bo : DynBitOrder) (eo : DynEndian) (total a b : Nat)
    (ha : eo = DynEndian.bigEndian → a < total) (hb : eo = DynEndian.bigEndian → b < total)
    (hbyte : byteOf eo a total = byteOf eo b total) (hbit : bitOf bo a = bitOf bo b) :
    a = b := by
  cases eo with
  | littleEndian =>
    cases bo <;> simp only [byteOf, bitOf] at hbyte hbit <;> omega
  | bigEndian =>
    have ha' := ha rfl
    have hb' := hb rfl
    cases bo <;> simp only [byteOf, bitOf] at hbyte hbit <;> omega

theorem decide_land_shift (x i : Nat) : decide (0 < x &&& (1 <<< i)) = x.testBit i := by
  rw [Nat.one_shiftLeft, Nat.and_two_pow]
  cases h : x.testBit i <;> simp [Nat.two_pow_pos]

/-! ### `updByte` bit-level behaviour -/

theorem updByte_testBit_self (x i : Nat) (v : Bool) (hi : i < 8) :
    (updByte x i v).testBit i = v := by
  cases v with
  | true =>
    simp only [updByte, if_true]
    rw [Nat.one_shiftLeft, Nat.testBit_lor, Nat.testBit_two_pow_self]
    simp
  | false =>
    simp only [updByte, Bool.false_eq_true, if_false]
    rw [Nat.one_shiftLeft, Nat.testBit_land, Nat.testBit_xor,
      show (255 : Nat) = 2 ^ 8 - 1 by norm_num, Nat.testBit_two_pow_sub_one,
      Nat.testBit_two_pow_self]
    simp [hi]

theorem updByte_testBit_ne (x i j : Nat) (v : Bool) (_hi : i < 8) (hj : j ≠ i)
    (hrange : j < 8 ∨ x < 256) :
    (updByte x i v).testBit j = x.testBit j := by
  have hij : i ≠ j := fun h => hj h.symm
  cases v with
  | true =>
    simp only [updByte, if_true]
    rw [Nat.one_shiftLeft, Nat.testBit_lor, Nat.testBit_two_pow_of_ne hij]
    simp
  | false =>
    simp only [updByte, Bool.false_eq_true, if_false]
    rw [Nat.one_shiftLeft, Nat.testBit_land, Nat.testBit_xor,
      show (255 : Nat) = 2 ^ 8 - 1 by norm_num, Nat.testBit_two_pow_sub_one,
      Nat.testBit_two_pow_of_ne hij]
    by_cases hj8 : j < 8
    · simp [hj8]
    · have hx : x < 256 := hrange.resolve_left hj8
      have hxj : x.testBit j = false :=
        Nat.testBit_lt_two_pow
          (lt_of_lt_of_le hx (by
            calc (256 : Nat) = 2 ^ 8 := by norm_num
            _ ≤ 2 ^ j := Nat.pow_le_pow_right (by norm_num) (by omega)))
      simp [hxj, hj8]

theorem updByte_eq_self (x i : Nat) (v : Bool) (hi : i < 8) (hx : x < 256)
    (h : x.testBit i = v) : updByte x i v = x := by
  apply Nat.eq_of_testBit_eq
  intro j
  by_cases hj : j = i
  · subst hj
    rw [updByte_testBit_self x j v hi, h]
  · exact updByte_testBit_ne x i j v hi hj (Or.inr hx)

theorem list_set_same {l : List Nat} {i a : Nat} (h : l[i]? = some a) :
    l.set i a = l := by
  apply List.ext_getElem?
  intro j
  by_cases hj : i = j
  · subst hj
    rw [List.getElem?_set_self (by
      obtain ⟨hlt, -⟩ := List.getElem?_eq_some_iff.mp h
      exact hlt)]
    exact h.symm
  · rw [List.getElem?_set_ne hj]

theorem setByteAt_bytes (s : BitSlice) (B u : Nat) :
    (setByteAt s B u).bytes = s.bytes.set B u := rfl

theorem setByteAt_start_bit (s : BitSlice) (B u : Nat) :
    (setByteAt s B u).start_bit = s.start_bit := rfl

theorem setByteAt_num_bits (s : BitSlice) (B u : Nat) :
    (setByteAt s B u).num_bits = s.num_bits := rfl

theorem setByteAt_bit_order (s : BitSlice) (B u : Nat) :
    (setByteAt s B u).bit_order = s.bit_order := rfl

theorem setByteAt_byte_order (s : BitSlice) (B u : Nat) :
    (setByteAt s B u).byte_order = s.byte_order := rfl

/-! ### `get_bit` / `set_bit` in terms of the characterized address -/

theorem get_bit_eq (s : BitSlice) (n : Nat) :
    s.get_bit n =
      if n < s.num_bits ∧
          (s.byte_order = DynEndian.littleEndian ∨ n + s.start_bit < s.num_bits) then
        match s.bytes[byteOf s.byte_order (n + s.start_bit) s.num_bits]? with
        | some x => some (x.testBit (bitOf s.bit_order (n + s.start_bit)))
        | none => none
      else none := by
  simp only [BitSlice.get_bit, find_bit_eq]
  by_cases h1 : n < s.num_bits
  · by_cases h2 : s.byte_order = DynEndian.littleEndian ∨ n + s.start_bit < s.num_bits
    · simp only [h1, h2, if_pos, and_self, if_true, true_and]
      cases hx : s.bytes[byteOf s.byte_order (n + s.start_bit) s.num_bits]? <;>
        simp [hx, decide_land_shift]
    · simp [h1, h2]
  · simp [h1]

theorem set_bit_eq (s : BitSlice) (n : Nat) (v : Bool) :
    s.set_bit n v =
      if s.byte_order = DynEndian.littleEndian ∨ n + s.start_bit < s.num_bits then
        match s.bytes[byteOf s.byte_order (n + s.start_bit) s.num_bits]? with
        | some x =>
          some (setByteAt s (byteOf s.byte_order (n + s.start_bit) s.num_bits)
            (updByte x (bitOf s.bit_order (n + s.start_bit)) v))
        | none => none
      else none := by
  simp only [BitSlice.set_bit, find_bit_eq, updByte, setByteAt]
  by_cases hc : s.byte_order = DynEndian.littleEndian ∨ n + s.start_bit < s.num_bits
  · simp only [if_pos hc]
  · simp only [if_neg hc]

theorem set_bit_some_elim {s : BitSlice} {n : Nat} {v : Bool} {s' : BitSlice}
    (h : s.set_bit n v = some s') :
    ∃ x, (s.byte_order = DynEndian.littleEndian ∨ n + s.start_bit < s.num_bits) ∧
      s.bytes[byteOf s.byte_order (n + s.start_bit) s.num_bits]? = some x ∧
      s' = setByteAt s (byteOf s.byte_order (n + s.start_bit) s.num_bits)
            (updByte x (bitOf s.bit_order (n + s.start_bit)) v) := by
  rw [set_bit_eq] at h
  by_cases hc : s.byte_order = DynEndian.littleEndian ∨ n + s.start_bit < s.num_bits
  · rw [if_pos hc] at h
    obtain ⟨x, hx⟩ : ∃ x,
        s.bytes[byteOf s.byte_order (n + s.start_bit) s.num_bits]? = some x := by
      cases hxx : s.bytes[byteOf s.byte_order (n + s.start_bit) s.num_bits]? with
      | none => simp only [hxx] at h; cases h
      | some x => exact ⟨x, rfl⟩
    rw [hx] at h
    exact ⟨x, hc, hx, (Option.some.inj h).symm⟩
  · rw [if_neg hc] at h
    cases h

theorem set_bit_some (s : BitSlice) (n : Nat) (v : Bool)
    (hWF : s.start_bit + s.num_bits ≤ 8 * s.bytes.length)
    (hn : n < s.num_bits)
    (hok : s.byte_order = DynEndian.littleEndian ∨ n + s.start_bit < s.num_bits) :
    ∃ x, s.bytes[byteOf s.byte_order (n + s.start_bit) s.num_bits]? = some x ∧
      s.set_bit n v = some (setByteAt s (byteOf s.byte_order (n + s.start_bit) s.num_bits)
        (updByte x (bitOf s.bit_order (n + s.start_bit)) v)) := by
  have hb : byteOf s.byte_order (n + s.start_bit) s.num_bits < s.bytes.length := by
    apply byteOf_lt_length
    · omega
    · omega
    · intro he
      rcases hok with h | h
      · rw [he] at h
        cases h
      · exact h
  refine ⟨s.bytes[byteOf s.byte_order (n + s.start_bit) s.num_bits],
    List.getElem?_eq_getElem hb, ?_⟩
  rw [set_bit_eq, if_pos hok, List.getElem?_eq_getElem hb]

theorem get_bit_set_bit_self {s s' : BitSlice} {n : Nat} {v : Bool}
    (hset : s.set_bit n v = some s') (hn : n < s.num_bits) :
    s'.get_bit n = some v := by
  obtain ⟨x, hok, hx, hs'⟩ := set_bit_some_elim hset
  subst hs'
  have hblt : byteOf s.byte_order (n + s.start_bit) s.num_bits < s.bytes.length := by
    obtain ⟨hlt, -⟩ := List.getElem?_eq_some_iff.mp hx
    exact hlt
  rw [get_bit_eq]
  simp only [setByteAt_bytes, setByteAt_start_bit, setByteAt_num_bits,
    setByteAt_bit_order, setByteAt_byte_order]
  rw [if_pos ⟨hn, hok⟩]
  simp only [List.getElem?_set_self hblt]
  rw [updByte_testBit_self x (bitOf s.bit_order (n + s.start_bit)) v
    (bitOf_lt_eight s.bit_order (n + s.start_bit))]

theorem get_bit_set_bit_ne {s s' : BitSlice} {n m : Nat} {v : Bool}
    (hset : s.set_bit n v = some s') (hne : m ≠ n) :
    s'.get_bit m = s.get_bit m := by
  obtain ⟨x, hok, hx, hs'⟩ := set_bit_some_elim hset
  subst hs'
  rw [get_bit_eq, get_bit_eq]
  simp only [setByteAt_bytes, setByteAt_start_bit, setByteAt_num_bits,
    setByteAt_bit_order, setByteAt_byte_order]
  by_cases hc : m < s.num_bits ∧
      (s.byte_order = DynEndian.littleEndian ∨ m + s.start_bit < s.num_bits)
  · rw [if_pos hc, if_pos hc]
    by_cases hBB : byteOf s.byte_order (m + s.start_bit) s.num_bits =
        byteOf s.byte_order (n + s.start_bit) s.num_bits
    · have hblt : byteOf s.byte_order (n + s.start_bit) s.num_bits < s.bytes.length := by
        obtain ⟨hlt, -⟩ := List.getElem?_eq_some_iff.mp hx
        exact hlt
      have hII : bitOf s.bit_order (m + s.start_bit) ≠ bitOf s.bit_order (n + s.start_bit) := by
        intro hII
        have heq : m + s.start_bit = n + s.start_bit := by
          apply addr_inj s.bit_order s.byte_order s.num_bits _ _ _ _ hBB hII
          · intro he
            rcases hc.2 with h | h
            · rw [he] at h
              cases h
            · exact h
          · intro he
            rcases hok with h | h
            · rw [he] at h
              cases h
            · exact h
        omega
      rw [hBB]
      simp only [List.getElem?_set_self hblt, hx]
      rw [updByte_testBit_ne x (bitOf s.bit_order (n + s.start_bit))
        (bitOf s.bit_order (m + s.start_bit)) v
        (bitOf_lt_eight s.bit_order (n + s.start_bit)) hII
        (Or.inl (bitOf_lt_eight s.bit_order (m + s.start_bit)))]
    · rw [List.getElem?_set_ne (fun h => hBB h.symm)]
  · rw [if_neg hc, if_neg hc]

/-! ## Claim C1 — byte-within-sequence mapping

The spec assigns `byte_index = n / 8` to **big**-endian and the reversed scan
`num_bytes - n/8 - 1` to **little**-endian.  The source (`src/order.rs`) has it
the other way around: `BigEndian::find_byte` performs the reversed scan (with
the `bit_no < num_bits` assertion) and `LittleEndian::find_byte` is `n / 8`.
-/

/-- Claim C1, counterexample: at `n = 0`, `total_bits = 16` the code's
big-endian byte index is `1`, not `n / 8 = 0`, and its little-endian byte index
is `0`, not `num_bytes - n/8 - 1 = 1`, refuting the claim's formulas as
stated. -/
theorem c1_counterexample :
    BigEndian.find_byte 0 16 ≠ some (0 / 8) ∧
    LittleEndian.find_byte 0 16 ≠ some ((16 + 7) / 8 - 0 / 8 - 1) := by
  decide

/-- Claim C1 (amended): for every bit index `n` with `n < total_bits`, the
**big-endian** byte index is `num_bytes - n/8 - 1` with
`num_bytes = ceil(total_bits/8)` (the reversed byte scan), and the
**little-endian** byte index is `n / 8`. -/
theorem c1_amended_find_byte : ∀ n total : Nat, n < total →
    BigEndian.find_byte n total = some ((total + 7) / 8 - n / 8 - 1) ∧
    LittleEndian.find_byte n total = some (n / 8) := by
  intro n total h
  exact ⟨by simp [BigEndian.find_byte, h], rfl⟩

/-- Witness for C1 at `n = 10`, `total_bits = 32` (the inputs of the crate's
own `test_big_endian_find_byte`/`test_little_endian_find_byte`). -/
theorem c1_witness :
    BigEndian.find_byte 10 32 = some ((32 + 7) / 8 - 10 / 8 - 1) ∧
    LittleEndian.find_byte 10 32 = some (10 / 8) :=
  c1_amended_find_byte 10 32 (by decide)

/-! ## Claim C2 — the Msb0/BigEndian slicing scenario

`get_bit` resolves addresses against the view's **own** `num_bits`
(`src/lib.rs` line 153) and `BigEndian::find_byte` asserts
`bit_no < num_bits` (`src/order.rs` line 134).  For the sub-slice `[14,19)` of
the 32-bit view the very first read resolves `find_byte(14, 5)`, whose
assertion fails: the scenario aborts instead of yielding
`[true, true, false, false, false]`, contradicting the crate's own
`test_slice` (`src/tests.rs` lines 33-41). -/

/-- Claim C2: slicing the 32-bit Msb0+BigEndian view over `[1,2,3,4]` to
`[14,19)` succeeds, but the first iterator step (equivalently `get(0)`) panics
(`none`) instead of yielding `true`. -/
theorem c2_slice_scenario_panics :
    (⟨[1, 2, 3, 4], 0, 32, DynBitOrder.msb0, DynEndian.bigEndian⟩ : BitSlice).slice
        (Bound.included 14) (Bound.excluded 19) =
      some ⟨[1, 2, 3, 4], 14, 5, DynBitOrder.msb0, DynEndian.bigEndian⟩ ∧
    BitIter.next ⟨⟨[1, 2, 3, 4], 14, 5, DynBitOrder.msb0, DynEndian.bigEndian⟩, 0⟩ = none ∧
    (⟨[1, 2, 3, 4], 14, 5, DynBitOrder.msb0, DynEndian.bigEndian⟩ : BitSlice).get_bit 0 = none := by
  decide

/-! ## Claim C3 — out-of-bounds `get`/`set` must fail fatally

`get_bit` does assert `n < num_bits`, but `set_bit` (`src/lib.rs` lines
223-232) has no bounds assertion, contradicting its own doc comment
("Panics if `n` is out of bounds"): under little-endian byte order an index
past the view's length but still inside the buffer is silently written. -/

/-- Claim C3: on the 8-bit Lsb0+LittleEndian view over `[0, 0]`,
`set_bit(9, true)` silently writes byte 1 (buffer becomes `[0, 2]`) instead of
failing, while `get_bit(9)` does fail. -/
theorem c3_set_bit_unchecked :
    (⟨[0, 0], 0, 8, DynBitOrder.lsb0, DynEndian.littleEndian⟩ : BitSlice).set_bit 9 true =
      some ⟨[0, 2], 0, 8, DynBitOrder.lsb0, DynEndian.littleEndian⟩ ∧
    (⟨[0, 0], 0, 8, DynBitOrder.lsb0, DynEndian.littleEndian⟩ : BitSlice).get_bit 9 = none := by
  decide

/-! ## Claim C5 — bit-within-byte mapping and runtime tags -/

/-- Claim C5: whenever the byte-order policy resolves a byte index, LSB-first
pairs it with `bit_in_byte = n % 8`; MSB-first resolves the same byte index and
`bit_in_byte = 7 - (n % 8)`; and the runtime-tagged `DynBitOrder`/`DynEndian`
compute exactly the corresponding static policy's result on every input. -/
theorem c5_find_bit_mapping :
    (∀ (eo : DynEndian) (n total B : Nat), DynEndian.find_byte eo n total = some B →
        Lsb0.find_bit eo n total = some (B, n % 8)) ∧
    (∀ (eo : DynEndian) (n total B I : Nat), Msb0.find_bit eo n total = some (B, I) →
        Lsb0.find_bit eo n total = some (B, n % 8) ∧ I = 7 - n % 8) ∧
    (∀ (eo : DynEndian) (n total : Nat),
        DynBitOrder.find_bit DynBitOrder.lsb0 eo n total = Lsb0.find_bit eo n total ∧
        DynBitOrder.find_bit DynBitOrder.msb0 eo n total = Msb0.find_bit eo n total) ∧
    (∀ n total : Nat,
        DynEndian.find_byte DynEndian.littleEndian n total = LittleEndian.find_byte n total ∧
        DynEndian.find_byte DynEndian.bigEndian n total = BigEndian.find_byte n total) := by
  refine ⟨?_, ?_, fun eo n total => ⟨rfl, rfl⟩, fun n total => ⟨rfl, rfl⟩⟩
  · intro eo n total B h
    simp [Lsb0.find_bit, h]
  · intro eo n total B I h
    cases hfb : DynEndian.find_byte eo n total with
    | none => simp [Msb0.find_bit, Lsb0.find_bit, hfb] at h
    | some B0 =>
      simp [Msb0.find_bit, Lsb0.find_bit, hfb] at h
      simp [Lsb0.find_bit, hfb, h.1, h.2]

/-- Witness for C5 at the inputs of the crate's own `test_lsb0_find_bit` /
`test_msb0_find_bit` unit tests. -/
theorem c5_witness :
    Lsb0.find_bit DynEndian.bigEndian 10 32 = some (2, 10 % 8) ∧
    (Lsb0.find_bit DynEndian.littleEndian 10 32 = some (1, 10 % 8) ∧ (5 : Nat) = 7 - 10 % 8) :=
  ⟨c5_find_bit_mapping.1 DynEndian.bigEndian 10 32 2 (by decide),
   c5_find_bit_mapping.2.1 DynEndian.littleEndian 10 32 1 5 (by decide)⟩

/-! ## Claim C6 — the append scenario

`push` (spec §4.3) addresses each new bit against the **new** total length.
With the source's `BigEndian::find_byte` this relocates previously written
bits as the length grows past each byte boundary, so the eleven pushes land in
byte 0 of the buffer, producing `[0b11110110, 0, 0, 0]` — not the
`[0, 0, 0b11100000, 0b10110110]` asserted by the claim and by the crate's own
`test_push` (`src/tests.rs` lines 180-187). -/

/-- Claim C6: pushing `[1,0,1,1,0,1,1,0,1,1,1]` onto the empty Msb0+BigEndian
view over four zero bytes succeeds at every step but leaves the buffer at
`[246, 0, 0, 0]` (`246 = 0b11110110`), not `[0, 0, 224, 182]`
(`= [0, 0, 0b11100000, 0b10110110]`). -/
theorem c6_push_scenario :
    ((BitSlice.new_with_order [0, 0, 0, 0] 0 DynBitOrder.msb0 DynEndian.bigEndian).bind
        (fun s => push_all s
          [true, false, true, true, false, true, true, false, true, true, true])).map
      BitSlice.bytes = some [246, 0, 0, 0] ∧
    ((BitSlice.new_with_order [0, 0, 0, 0] 0 DynBitOrder.msb0 DynEndian.bigEndian).bind
        (fun s => push_all s
          [true, false, true, true, false, true, true, false, true, true, true])).map
      BitSlice.bytes ≠ some [0, 0, 224, 182] := by
  decide

/-! ## Claim C8 — slice composition

`BitSlice::slice` (`src/lib.rs` line 181) sets the sub-view's `start_bit` to
the range's start, discarding the receiver's own `start_bit`, so
`slice(a..b).slice(c..d)` re-slices from the buffer origin rather than from
`a`: it equals `slice(c..d)`, not `slice(a+c..a+d)`, contradicting slice's own
doc comment ("a sub-slice of the current slice"). -/

/-- Claim C8: over the 16-bit Lsb0+LittleEndian view of `[1, 2]`, with
`a = 8, b = 16, c = 0, d = 8`, structural equality between
`slice(8..16).slice(0..8)` and `slice(8..16) = slice(a+c..a+d)` evaluates to
`false` (the nested slice reads byte 0, the direct slice reads byte 1). -/
theorem c8_slice_composition_fails :
    ((⟨[1, 2], 0, 16, DynBitOrder.lsb0, DynEndian.littleEndian⟩ : BitSlice).slice
        (Bound.included 8) (Bound.excluded 16)).bind
      (fun s1 => (s1.slice (Bound.included 0) (Bound.excluded 8)).bind
        (fun s11 => ((⟨[1, 2], 0, 16, DynBitOrder.lsb0, DynEndian.littleEndian⟩ : BitSlice).slice
            (Bound.included 8) (Bound.excluded 16)).bind
          (fun s2 => BitSlice.eq s11 s2))) = some false := by
  decide

/-! ## Claim C9 — cursor invariant and exact size

`Iterator::nth` (`src/lib.rs` lines 428-431) adds `n` to the cursor
unconditionally before calling `next`, so the cursor can move strictly past
the length, after which `size_hint`'s `usize` subtraction underflows: the
claimed invariant `idx ≤ length` does not survive `nth`. -/

/-- Claim C9, counterexample: on a 1-bit view, `nth(2)` from a fresh iterator
leaves the cursor at `idx = 2 > 1 = length`, and `size_hint` at that state
panics (`none`) instead of reporting `length - idx`. -/
theorem c9_counterexample :
    BitIter.nth ⟨⟨[0], 0, 1, DynBitOrder.lsb0, DynEndian.littleEndian⟩, 0⟩ 2 =
      some (none, ⟨⟨[0], 0, 1, DynBitOrder.lsb0, DynEndian.littleEndian⟩, 2⟩) ∧
    BitIter.size_hint ⟨⟨[0], 0, 1, DynBitOrder.lsb0, DynEndian.littleEndian⟩, 2⟩ = none := by
  decide

/-- Claim C9 (amended): restricted to `next()`, the cursor invariant holds —
every successful `next()` increments `idx` by exactly 1, keeps the same
underlying view, and only fires from `idx < length`, so `idx ≤ length` is
preserved; once `length ≤ idx` every `next()` yields the empty result and
returns the iterator unchanged (idempotent terminal state); and whenever
`idx ≤ length` the reported exact size is `length - idx`.  (`nth(k)` advances
`idx` by `k` unconditionally and can exceed `length`, where `size_hint`
underflows — see the counterexample.) -/
theorem c9_cursor_invariant :
    (∀ (it it' : BitIter) (b : Bool), BitIter.next it = some (some b, it') →
        it'.slice = it.slice ∧ it'.idx = it.idx + 1 ∧ it'.idx ≤ it.slice.num_bits) ∧
    (∀ it : BitIter, it.slice.num_bits ≤ it.idx → BitIter.next it = some (none, it)) ∧
    (∀ it : BitIter, it.idx ≤ it.slice.num_bits →
        BitIter.size_hint it =
          some (it.slice.num_bits - it.idx, some (it.slice.num_bits - it.idx))) := by
  refine ⟨?_, ?_, ?_⟩
  · intro it it' b h
    simp only [BitIter.next] at h
    split at h
    · rename_i hidx
      cases hg : it.slice.get_bit it.idx with
      | none => rw [hg] at h; exact absurd h (by simp)
      | some bit =>
        rw [hg] at h
        simp only [Option.some.injEq, Prod.mk.injEq] at h
        obtain ⟨-, h2⟩ := h
        subst h2
        refine ⟨rfl, rfl, ?_⟩
        show it.idx + 1 ≤ it.slice.num_bits
        omega
    · simp only [Option.some.injEq, Prod.mk.injEq] at h
      exact absurd h.1 (by simp)
  · intro it h
    simp only [BitIter.next]
    rw [if_neg (by omega)]
  · intro it h
    simp only [BitIter.size_hint]
    rw [if_pos h]

/-- Witness for C9's amended invariant: the terminal state is idempotent at
`idx = length = 8`, and `size_hint` at `idx = 3` reports exactly `8 - 3`. -/
theorem c9_witness :
    BitIter.next ⟨⟨[1], 0, 8, DynBitOrder.lsb0, DynEndian.littleEndian⟩, 8⟩ =
      some (none, ⟨⟨[1], 0, 8, DynBitOrder.lsb0, DynEndian.littleEndian⟩, 8⟩) ∧
    BitIter.size_hint ⟨⟨[1], 0, 8, DynBitOrder.lsb0, DynEndian.littleEndian⟩, 3⟩ =
      some (8 - 3, some (8 - 3)) :=
  ⟨c9_cursor_invariant.2.1 ⟨⟨[1], 0, 8, DynBitOrder.lsb0, DynEndian.littleEndian⟩, 8⟩ (by decide),
   c9_cursor_invariant.2.2 ⟨⟨[1], 0, 8, DynBitOrder.lsb0, DynEndian.littleEndian⟩, 3⟩ (by decide)⟩

/-! ## Claim C4 — read-after-write -/

/-- Claim C4, counterexample: on the big-endian sub-view `[8,16)` of a 16-bit
Lsb0+BigEndian view over `[0, 0]` (so `start_bit = 8`, `length = 8`), the valid
index `n = 0` resolves `find_byte(0 + 8, 8)`, whose `bit_no < num_bits`
assertion fails: `set(0, true)` aborts before writing, so no subsequent
`get(0)` can observe the value — read-after-write fails for sub-views with
nonzero start offset under big-endian byte order. -/
theorem c4_counterexample :
    (⟨[0, 0], 0, 16, DynBitOrder.lsb0, DynEndian.bigEndian⟩ : BitSlice).slice
        (Bound.included 8) (Bound.excluded 16) =
      some ⟨[0, 0], 8, 8, DynBitOrder.lsb0, DynEndian.bigEndian⟩ ∧
    (⟨[0, 0], 8, 8, DynBitOrder.lsb0, DynEndian.bigEndian⟩ : BitSlice).set_bit 0 true = none := by
  decide

/-- Claim C4 (amended): read-after-write holds for every view satisfying the
data-model invariant `start_bit + length ≤ 8 × byte_length` (spec §3) whenever
the address resolution itself succeeds — always under little-endian byte
order, and exactly when `n + start_bit < length` under big-endian byte order
(otherwise `set` aborts on the `BigEndian::find_byte` assertion, see the
counterexample): `set(n, v)` then succeeds and `get(n)` on the result returns
`v`, for every bit order, byte order, valid `n < length` and boolean `v`. -/
theorem c4_read_after_write : ∀ (s : BitSlice) (n : Nat) (v : Bool),
    s.start_bit + s.num_bits ≤ 8 * s.bytes.length →
    n < s.num_bits →
    (s.byte_order = DynEndian.littleEndian ∨ n + s.start_bit < s.num_bits) →
    ∃ s', s.set_bit n v = some s' ∧ s'.get_bit n = some v := by
  intro s n v hWF hn hok
  obtain ⟨x, hx, hset⟩ := set_bit_some s n v hWF hn hok
  exact ⟨_, hset, get_bit_set_bit_self hset hn⟩

/-- Witness for C4 on the 16-bit Lsb0+LittleEndian view over `[0, 0]` at
`n = 3`, `v = true`. -/
theorem c4_witness :
    ∃ s', (⟨[0, 0], 0, 16, DynBitOrder.lsb0, DynEndian.littleEndian⟩ : BitSlice).set_bit 3 true =
        some s' ∧ s'.get_bit 3 = some true :=
  c4_read_after_write ⟨[0, 0], 0, 16, DynBitOrder.lsb0, DynEndian.littleEndian⟩ 3 true
    (by decide) (by decide) (Or.inl rfl)

/-! ## Claim C7 — integer round-trip -/

theorem get_bit_of_zero (s : BitSlice) (k j : Nat) (hbytes : s.bytes = List.replicate k 0)
    (hstart : s.start_bit = 0) (hnum : s.num_bits = 8 * k) (hj : j < 8 * k) :
    s.get_bit j = some false := by
  rw [get_bit_eq, hbytes, hstart, hnum]
  rw [if_pos ⟨hj, Or.inr (by omega)⟩]
  have hblt : byteOf s.byte_order (j + 0) (8 * k) < k := by
    apply byteOf_lt_length
    · omega
    · omega
    · intro _
      omega
  simp only [List.getElem?_replicate_of_lt hblt]
  simp

theorem write_bits_spec : ∀ (fuel idx : Nat) (s : BitSlice) (v : Nat),
    s.start_bit = 0 →
    s.num_bits = idx + fuel →
    s.num_bits ≤ 8 * s.bytes.length →
    (∀ j, idx ≤ j → j < s.num_bits → s.get_bit j = some false) →
    ∃ s', write_bits s idx fuel v = some s' ∧
      s'.start_bit = s.start_bit ∧ s'.num_bits = s.num_bits ∧
      s'.bytes.length = s.bytes.length ∧
      (∀ j, j < idx → s'.get_bit j = s.get_bit j) ∧
      (∀ j, idx ≤ j → j < s.num_bits → s'.get_bit j = some (v.testBit (j - idx))) := by
  intro fuel
  induction fuel with
  | zero =>
    intro idx s v hstart hnum hWF hzero
    exact ⟨s, rfl, rfl, rfl, rfl, fun j _ => rfl, fun j hj1 hj2 => by omega⟩
  | succ fuel ih =>
    intro idx s v hstart hnum hWF hzero
    by_cases hv : v = 0
    · subst hv
      refine ⟨s, by simp [write_bits], rfl, rfl, rfl, fun j _ => rfl, ?_⟩
      intro j hj1 hj2
      rw [hzero j hj1 hj2]
      simp
    · have hn : idx < s.num_bits := by omega
      have hok : s.byte_order = DynEndian.littleEndian ∨ idx + s.start_bit < s.num_bits :=
        Or.inr (by omega)
      obtain ⟨x, hx, hset⟩ := set_bit_some s idx (decide (v &&& 1 = 1)) (by omega) hn hok
      set s1 := setByteAt s (byteOf s.byte_order (idx + s.start_bit) s.num_bits)
        (updByte x (bitOf s.bit_order (idx + s.start_bit)) (decide (v &&& 1 = 1))) with hs1
      have h1start : s1.start_bit = s.start_bit := rfl
      have h1num : s1.num_bits = s.num_bits := rfl
      have h1len : s1.bytes.length = s.bytes.length := by
        rw [hs1, setByteAt_bytes, List.length_set]
      have hget_same : s1.get_bit idx = some (decide (v &&& 1 = 1)) :=
        get_bit_set_bit_self hset hn
      have hget_ne : ∀ j, j ≠ idx → s1.get_bit j = s.get_bit j :=
        fun j hj => get_bit_set_bit_ne hset hj
      have hzero1 : ∀ j, idx + 1 ≤ j → j < s1.num_bits → s1.get_bit j = some false := by
        intro j hj1 hj2
        rw [hget_ne j (by omega)]
        rw [h1num] at hj2
        exact hzero j (by omega) hj2
      obtain ⟨s2, hw, h2start, h2num, h2len, h2lo, h2hi⟩ :=
        ih (idx + 1) s1 (v >>> 1) (by rw [h1start, hstart]) (by rw [h1num, hnum]; omega)
          (by rw [h1num, h1len]; omega) hzero1
      refine ⟨s2, ?_, ?_, ?_, ?_, ?_, ?_⟩
      · simp only [write_bits, if_neg hv]
        rw [hset]
        exact hw
      · rw [h2start, h1start]
      · rw [h2num, h1num]
      · rw [h2len, h1len]
      · intro j hj
        rw [h2lo j (by omega), hget_ne j (by omega)]
      · intro j hj1 hj2
        by_cases hje : j = idx
        · subst hje
          rw [h2lo j (by omega), hget_same]
          congr 1
          rw [Nat.sub_self, Nat.testBit_zero, Nat.and_one_is_mod]
        · rw [h2hi j (by omega) (by rw [h1num]; exact hj2)]
          rw [Nat.testBit_shiftRight]
          congr 2
          omega

theorem from_integer_spec (bo : DynBitOrder) (eo : DynEndian) (k v : Nat) :
    ∃ s', from_integer bo eo k v = some s' ∧ s'.num_bits = 8 * k ∧
      ∀ j, j < 8 * k → s'.get_bit j = some (v.testBit j) := by
  have hnew : BitSlice.new_with_order (List.replicate k 0) (8 * k) bo eo =
      some ⟨List.replicate k 0, 0, 8 * k, bo, eo⟩ := by
    unfold BitSlice.new_with_order
    rw [if_pos (by rw [List.length_replicate]; omega)]
  obtain ⟨s', hw, hstart, hnum, hlen, hlo, hhi⟩ :=
    write_bits_spec (8 * k) 0 ⟨List.replicate k 0, 0, 8 * k, bo, eo⟩ v rfl
      (by show (8 : Nat) * k = 0 + 8 * k; omega)
      (by show (8 : Nat) * k ≤ 8 * (List.replicate k 0).length; rw [List.length_replicate])
      (fun j hj1 hj2 => get_bit_of_zero _ k j rfl rfl rfl hj2)
  refine ⟨s', ?_, hnum, ?_⟩
  · unfold from_integer
    simp only [hnew]
    exact hw
  · intro j hj
    rw [hhi j (by omega) hj]
    simp

theorem div_pow_mod_two (v n : Nat) :
    v / 2 ^ n % 2 = if v.testBit n then 1 else 0 := by
  cases ht : v.testBit n with
  | true =>
    rw [Nat.testBit_to_div_mod] at ht
    simp [of_decide_eq_true ht]
  | false =>
    rw [Nat.testBit_to_div_mod] at ht
    have h2 := of_decide_eq_false ht
    have hlt : v / 2 ^ n % 2 < 2 := Nat.mod_lt _ (by norm_num)
    simp only [Bool.false_eq_true, if_false]
    omega

theorem read_bits_spec (s : BitSlice) (v : Nat) :
    ∀ n, (∀ j, j < n → s.get_bit j = some (v.testBit j)) →
      read_bits s n = some (v % 2 ^ n) := by
  intro n
  induction n with
  | zero => intro _; simp [read_bits, Nat.mod_one]
  | succ n ih =>
    intro h
    have hr := ih (fun j hj => h j (by omega))
    simp only [read_bits, hr, h n (by omega)]
    congr 1
    rw [pow_succ, Nat.mod_mul, div_pow_mod_two]
    cases v.testBit n <;> simp

/-- Claim C7: for every bit order, byte order, byte width `k` (covering all
the crate's supported widths `u8 … u128`, `usize`), and value `v < 2^(8k)`,
`from_integer` (the `From<uN>` loop, writing from logical index 0 as the
least-significant bit upward) followed by `to_uint` at width `8k` (the
`TryFrom` path) succeeds and returns exactly `v`. -/
theorem c7_integer_roundtrip : ∀ (bo : DynBitOrder) (eo : DynEndian) (k v : Nat),
    v < 2 ^ (8 * k) →
    (from_integer bo eo k v).bind (fun s => s.to_uint (8 * k)) = some v := by
  intro bo eo k v hv
  obtain ⟨s', h1, hnum, hget⟩ := from_integer_spec bo eo k v
  rw [h1]
  show BitSlice.to_uint s' (8 * k) = some v
  unfold BitSlice.to_uint
  simp only [hnum, read_bits_spec s' v (8 * k) (fun j hj => hget j hj)]
  rw [Nat.mod_eq_of_lt hv, if_pos hv]

/-- Witness for C7 at `k = 1` (width 8) and `v = 234 = 0b11101010`, the value
of the crate's own `from_int` test, under the crate's default orders. -/
theorem c7_witness :
    (from_integer DynBitOrder.lsb0 DynEndian.littleEndian 1 234).bind
      (fun s => s.to_uint (8 * 1)) = some 234 :=
  c7_integer_roundtrip DynBitOrder.lsb0 DynEndian.littleEndian 1 234 (by decide)

/-! ## Claim C10 — frame property of `set_bit` -/

/-- Claim C10: whenever `set(n, value)` completes on a valid index
`n < length` with resolved address `(B, I)`, it changes at most physical bit
`I` of byte `B`: the view's geometry is untouched, every byte other than `B`
(including bytes outside the view's range) is unchanged, every bit of byte `B`
other than `I` is unchanged, and if the addressed bit already holds `value`
the whole view (buffer included) is left exactly as it was.  The `< 256`
hypothesis is the `u8` range invariant of the backing buffer.  (When `set`
instead aborts — see C4's counterexample — it returns no state at all, so
nothing is modified either.) -/
theorem c10_set_bit_frame : ∀ (s : BitSlice) (n : Nat) (v : Bool) (s' : BitSlice) (B I : Nat),
    (∀ b ∈ s.bytes, b < 256) →
    n < s.num_bits →
    s.bit_order.find_bit s.byte_order (n + s.start_bit) s.num_bits = some (B, I) →
    s.set_bit n v = some s' →
    s'.start_bit = s.start_bit ∧ s'.num_bits = s.num_bits ∧
    s'.bytes.length = s.bytes.length ∧
    (∀ k, k ≠ B → s'.bytes[k]? = s.bytes[k]?) ∧
    (∀ x y, s.bytes[B]? = some x → s'.bytes[B]? = some y →
      ∀ j, j ≠ I → y.testBit j = x.testBit j) ∧
    (∀ x, s.bytes[B]? = some x → x.testBit I = v → s' = s) := by
  intro s n v s' B I h256 hn hfind hset
  rw [find_bit_eq] at hfind
  by_cases hok : s.byte_order = DynEndian.littleEndian ∨ n + s.start_bit < s.num_bits
  case neg => rw [if_neg hok] at hfind; cases hfind
  rw [if_pos hok] at hfind
  have hpair := Option.some.inj hfind
  have hB : B = byteOf s.byte_order (n + s.start_bit) s.num_bits :=
    (congrArg Prod.fst hpair).symm
  have hI : I = bitOf s.bit_order (n + s.start_bit) :=
    (congrArg Prod.snd hpair).symm
  subst hB
  subst hI
  obtain ⟨x0, -, hx0, hs'⟩ := set_bit_some_elim hset
  subst hs'
  have hIlt : bitOf s.bit_order (n + s.start_bit) < 8 := bitOf_lt_eight _ _
  have hblt : byteOf s.byte_order (n + s.start_bit) s.num_bits < s.bytes.length := by
    obtain ⟨hlt, -⟩ := List.getElem?_eq_some_iff.mp hx0
    exact hlt
  have hx0lt : x0 < 256 := h256 x0 (List.getElem?_mem hx0)
  refine ⟨rfl, rfl, by rw [setByteAt_bytes, List.length_set], ?_, ?_, ?_⟩
  · intro k hk
    rw [setByteAt_bytes, List.getElem?_set_ne (fun h => hk h.symm)]
  · intro x y hx hy j hj
    have hxx0 : x0 = x := Option.some.inj (hx0.symm.trans hx)
    subst hxx0
    rw [setByteAt_bytes, List.getElem?_set_self hblt] at hy
    have hy' : y = updByte x0 (bitOf s.bit_order (n + s.start_bit)) v :=
      (Option.some.inj hy).symm
    subst hy'
    exact updByte_testBit_ne x0 (bitOf s.bit_order (n + s.start_bit)) j v hIlt hj (Or.inr hx0lt)
  · intro x hx hbit
    have hxx0 : x0 = x := Option.some.inj (hx0.symm.trans hx)
    subst hxx0
    show setByteAt s (byteOf s.byte_order (n + s.start_bit) s.num_bits)
      (updByte x0 (bitOf s.bit_order (n + s.start_bit)) v) = s
    rw [setByteAt, updByte_eq_self x0 (bitOf s.bit_order (n + s.start_bit)) v hIlt hx0lt hbit,
      list_set_same hx0]

/-- Witness for C10 on the 16-bit Lsb0+LittleEndian view over `[5, 9]`:
`set_bit(1, true)` resolves `(B, I) = (0, 1)` and yields bytes `[7, 9]`; byte 1
is untouched and bit 3 of byte 0 is untouched. -/
theorem c10_witness :
    (⟨[7, 9], 0, 16, DynBitOrder.lsb0, DynEndian.littleEndian⟩ : BitSlice).bytes[1]? =
      (⟨[5, 9], 0, 16, DynBitOrder.lsb0, DynEndian.littleEndian⟩ : BitSlice).bytes[1]? ∧
    (7 : Nat).testBit 3 = (5 : Nat).testBit 3 :=
  ⟨(c10_set_bit_frame ⟨[5, 9], 0, 16, DynBitOrder.lsb0, DynEndian.littleEndian⟩ 1 true
      ⟨[7, 9], 0, 16, DynBitOrder.lsb0, DynEndian.littleEndian⟩ 0 1
      (by decide) (by decide) (by decide) (by decide)).2.2.2.1 1 (by decide),
   (c10_set_bit_frame ⟨[5, 9], 0, 16, DynBitOrder.lsb0, DynEndian.littleEndian⟩ 1 true
      ⟨[7, 9], 0, 16, DynBitOrder.lsb0, DynEndian.littleEndian⟩ 0 1
      (by decide) (by decide) (by decide) (by decide)).2.2.2.2.1 5 7
      (by decide) (by decide) 3 (by decide)⟩
